import Mathlib

/-!
Shallow embedding of the lattice Green-function calculator `GFCrystalcalc`
(module `onsager/GFcalc.py`) and verification of its specification claims.

Real/complex floating-point arithmetic of the source is modelled by exact
arithmetic over `ℝ` and `ℂ`; numpy array indexing is modelled by `List.getD`
(the in-bounds contract is carried as hypotheses where needed).  The
eigensolver `numpy.linalg.eigh` is modelled through its contract (it returns
the eigenvalues sorted ascending); the `Taylor3D` power-expansion objects
(module `onsager/PowerExpansion.py`, not part of the sources being verified)
appear only through their coefficient lists `(n, l, coeff)` and through
abstract evaluation functions.
-/

open scoped Classical

noncomputable section

namespace OnsagerGF

/-- Cartesian 3-vectors (numpy shape-(3,) arrays). -/
abbrev V3 := Fin 3 → ℝ

/-- 3×3 real matrices (rotations, diffusivity). -/
abbrev M3 := Matrix (Fin 3) (Fin 3) ℝ

/-- `np.dot` of two 3-vectors. -/
def dot3 (a b : V3) : ℝ := ∑ i, a i * b i

/-- A single hop of a jump network: `((i, j), dx)`. -/
abbrev Jump := (ℕ × ℕ) × V3

/-- `np.isclose(a, b)` with numpy's default tolerances
`rtol = 1e-5`, `atol = 1e-8`: the condition `|a - b| ≤ atol + rtol*|b|`. -/
def isclose (a b : ℝ) : Prop := |a - b| ≤ 1e-8 + 1e-5 * |b|

/-- `np.allclose(q, 0)` for a 3-vector: every component within `atol` of zero. -/
def allclose0 (q : V3) : Prop := ∀ i, |q i| ≤ 1e-8

/-! ### FourierTransformJumps -/

/-- Accumulation loop of `FourierTransformJumps` for one jump class and one
k-point: starting from the zero entry, each hop `((i', j'), dx)` of the class
adds `exp(1j * np.dot(k, dx))` into the `(i, j)` matrix entry when
`(i', j') = (i, j)`. -/
def FTentry (jumplist : List Jump) (k : V3) (i j : ℕ) : ℂ :=
  jumplist.foldl
    (fun acc h =>
      if h.1.1 = i ∧ h.1.2 = j then acc + Complex.exp (Complex.I * (dot3 k h.2 : ℝ))
      else acc) 0

/-- Entry `(J, kind, i, j)` of the `FTjumps` array returned by
`FourierTransformJumps`. -/
def FTjumps (jumpnetwork : List (List Jump)) (kpts : List V3)
    (J kind i j : ℕ) : ℂ :=
  FTentry (jumpnetwork.getD J []) (kpts.getD kind (fun _ => 0)) i j

/-- Accumulation loop of `FourierTransformJumps` for the multiplicity array:
each hop `((i', j'), dx)` with `i' = i` increments `SEjumps[i, J]`. -/
def SEentry (jumplist : List Jump) (i : ℕ) : ℕ :=
  jumplist.foldl (fun acc h => if h.1.1 = i then acc + 1 else acc) 0

/-- Entry `(i, J)` of the `SEjumps` array returned by `FourierTransformJumps`. -/
def SEjumps (jumpnetwork : List (List Jump)) (i J : ℕ) : ℕ :=
  SEentry (jumpnetwork.getD J []) i

/-! ### SymmRates, maxrate, escape (SetRates steps 1–2) -/

/-- `SymmRates`: symmetrized rate per jump class,
`pT * exp(0.5*betaene[w0] + 0.5*betaene[w1] - beT) / sqrt(pre[w0]*pre[w1])`,
iterating `zip(self.jumppairs, preT, betaeneT)`. -/
def SymmRates (jumppairs : List (ℕ × ℕ)) (pre betaene preT betaeneT : List ℝ) :
    List ℝ :=
  (jumppairs.zip (preT.zip betaeneT)).map fun x =>
    x.2.1 * Real.exp (0.5 * betaene.getD x.1.1 0 + 0.5 * betaene.getD x.1.2 0 - x.2.2)
      / Real.sqrt (pre.getD x.1.1 0 * pre.getD x.1.2 0)

/-- `np.max` over a 1-d array, as the left fold of `max` over the list
(the value on the empty list is irrelevant: numpy raises there). -/
def npMax : List ℝ → ℝ
  | [] => 0
  | a :: l => l.foldl max a

/-- The normalized rate array stored by `SetRates`:
`self.symmrate /= self.maxrate`. -/
def normRates (jumppairs : List (ℕ × ℕ)) (pre betaene preT betaeneT : List ℝ) :
    List ℝ :=
  (SymmRates jumppairs pre betaene preT betaeneT).map
    (fun r => r / npMax (SymmRates jumppairs pre betaene preT betaeneT))

/-- The diagonal escape term of `SetRates` at site `i`:
`-(sum over J of SEjumps[i,J] * preT[J]/pre[wi] * exp(betaene[wi]-betaeneT[J]))
/ maxrate` with `wi = invmap[i]`. -/
def escape (SE : ℕ → ℕ → ℕ) (invmap : List ℕ) (pre betaene preT betaeneT : List ℝ)
    (maxrate : ℝ) (i : ℕ) : ℝ :=
  -(((List.range preT.length).map fun J =>
      (SE i J : ℝ) * preT.getD J 0 / pre.getD (invmap.getD i 0) 0
        * Real.exp (betaene.getD (invmap.getD i 0) 0 - betaeneT.getD J 0)).sum)
    / maxrate

/-- Modelled from the spec: the escape term as the specification words it —
"negative sum, per site, of outgoing *symmetrized* rates weighted by
multiplicity, normalized the same way" (`symmrate` here is the unnormalized
symmetrized rate array, and the normalization is division by `maxrate`). -/
def escapeSpec (SE : ℕ → ℕ → ℕ) (symmrate : List ℝ) (maxrate : ℝ) (i : ℕ) : ℝ :=
  -(((List.range symmrate.length).map fun J =>
      (SE i J : ℝ) * symmrate.getD J 0).sum) / maxrate

/-! ### DiagGamma and the equilibrium check (SetRates step 1) -/

/-- `DiagGamma`'s post-processing of the eigensolver output: `LA.eigh` is
applied to `gammacoeff` (the negative of the `n = 0` Taylor coefficient of
`omega_Taylor`) and returns its eigenvalues `r` sorted ascending; `DiagGamma`
returns `-r`. `eigs` is eigh's output list. -/
def gammaEigen (eigs : List ℝ) : List ℝ := eigs.map (fun x => -x)

/-- The equilibrium check of `SetRates`:
`self.r, self.vr = self.DiagGamma()`, then
`if not np.isclose(self.r[0], 0): raise ArithmeticError(...)`. -/
def equilCheck (eigs : List ℝ) : Except String (List ℝ) :=
  if isclose ((gammaEigen eigs).headD 0) 0 then Except.ok (gammaEigen eigs)
  else Except.error "No equilibrium solution to rates?"

/-! ### Isotropization check (SetRates step 3) -/

/-- A term `(n, l, coeff)` of a `Taylor3D` coefficient list; the coefficient
block is modelled as its flattened entries `ind ↦ coeff[ind, 0, 0]`. -/
abbrev TaylorTerm := ℕ × ℕ × (ℕ → ℂ)

/-- The isotropization check of `SetRates`:
`if oT_D.coefflist[0][1] != 0: raise ArithmeticError("Problem isotropizing D?")`
— `coefflist[0]` is the first term `(n, l, coeff)` and `[1]` selects `l`. -/
def isotropyCheck (coefflist : List TaylorTerm) : Except String Unit :=
  if (coefflist.headD (0, 0, fun _ => 0)).2.1 ≠ 0 then
    Except.error "Problem isotropizing D?"
  else Except.ok ()

/-! ### Semicontinuum inversion (SetRates step 5) -/

/-- One iteration of the semicontinuum inversion loop of `SetRates`: for mesh
point `qind`, if `np.allclose(q, 0)` the stored residual is
`(-1/pmax**2) * np.outer(vr[:,0], vr[:,0])`; otherwise it is
`np.linalg.inv(omega_qij[qind]) - g_Taylor(np.dot(pqtrans, q), fnlp)`.
The evaluation `g_Taylor(·, fnlp)` of the (external) `Taylor3D` object is
abstracted as the function `gT`. -/
def gscStep {N : ℕ} (kpts : List V3) (omega : ℕ → Matrix (Fin N) (Fin N) ℂ)
    (pmax : ℝ) (vr0 : Fin N → ℝ) (pqtrans : M3)
    (gT : V3 → Matrix (Fin N) (Fin N) ℂ) (qind : ℕ) :
    Matrix (Fin N) (Fin N) ℂ :=
  let q := kpts.getD qind (fun _ => 0)
  if allclose0 q then
    ((-1 / pmax ^ 2 : ℝ) : ℂ) • Matrix.of (fun a b => ((vr0 a * vr0 b : ℝ) : ℂ))
  else (omega qind)⁻¹ - gT (pqtrans.mulVec q)

/-! ### The assembled state and the evaluator `__call__` -/

/-- One group operation of the crystal, as used by `BreakdownGroups`:
its Cartesian rotation matrix `cartrot` and its site index map. -/
abbrev GroupOp := M3 × (ℕ → ℕ)

/-- `BreakdownGroups`: `indexpair[i][j]` lists, over the group operations,
the image pair `(indexmap[i], indexmap[j])`. -/
def indexpair (G : List GroupOp) (i j : ℕ) : List (ℕ × ℕ) :=
  G.map (fun g => (g.2 i, g.2 j))

/-- The state of a `GFCrystalcalc` object relevant to evaluation.  The field
`gT_ij` abstracts the real-space evaluation
`self.gT_ij[i][j](u, self.g_Taylor_fnlu)` of the stored `Taylor3D` objects;
`gsc i j k` is `self.gsc_ijq[i, j, k]`; `D = none` models the sentinel
`self.D = 0` set by `__init__` before any `SetRates` call. -/
structure GFState where
  G : List GroupOp
  kpts : List V3
  wts : List ℝ
  gsc : ℕ → ℕ → ℕ → ℂ
  gT_ij : ℕ → ℕ → V3 → ℂ
  uxtrans : M3
  maxrate : ℝ
  D : Option M3

/-- A `GFCrystalcalc` as produced by `__init__`: the topology and mesh data
are set, and the diffusivity holds its sentinel (`self.D, self.eta = 0, 0`). -/
def GFState.init (G : List GroupOp) (kpts : List V3) (wts : List ℝ)
    (gsc : ℕ → ℕ → ℕ → ℂ) (gT : ℕ → ℕ → V3 → ℂ) (ux : M3) (mr : ℝ) : GFState :=
  ⟨G, kpts, wts, gsc, gT, ux, mr, none⟩

/-- The symmetry-averaged mesh sum `gIFT` of `__call__`: the loop over
`zip(self.grouparray, self.indexpair[i][j])` accumulating
`np.dot(self.wts, self.gsc_ijq[pair] * self.exp_dxq(np.dot(gop, dx)))`,
finally divided by `self.NG = len(G)`. -/
def gIFTval (s : GFState) (i j : ℕ) (dx : V3) : ℂ :=
  (∑ n : Fin s.G.length, ∑ k : Fin s.kpts.length,
      ((s.wts.getD k 0 : ℝ) : ℂ) * s.gsc ((s.G.get n).2 i) ((s.G.get n).2 j) k
        * Complex.exp (-Complex.I * (dot3 (s.kpts.get k) ((s.G.get n).1.mulVec dx) : ℝ)))
    / (s.G.length : ℂ)

/-- The real-space Taylor correction of `__call__`:
`self.gT_ij[i][j](np.dot(self.uxtrans, dx), self.g_Taylor_fnlu)`. -/
def gTval (s : GFState) (i j : ℕ) (dx : V3) : ℂ :=
  s.gT_ij i j (s.uxtrans.mulVec dx)

/-- `__call__(i, j, dx)`: raises before rates are set; raises when either the
mesh sum or the Taylor correction has non-negligible imaginary part; otherwise
returns `(gIFT + gTaylor).real / self.maxrate`. -/
def callGF (s : GFState) (i j : ℕ) (dx : V3) : Except String ℝ :=
  match s.D with
  | none => Except.error "Need to SetRates first"
  | some _ =>
    if ¬ isclose (gIFTval s i j dx).im 0 then Except.error "Got complex IFT?"
    else if ¬ isclose (gTval s i j dx).im 0 then
      Except.error "Got complex IFT from Taylor?"
    else Except.ok ((gIFTval s i j dx + gTval s i j dx).re / s.maxrate)

/-! ### Diffusivity (from the n = 2 Taylor term) -/

/-- The upper-triangle Cartesian pairs
`((i,j) for i in range(3) for j in range(i,3))`. -/
def l2pairs : List (Fin 3 × Fin 3) := [(0,0), (0,1), (0,2), (1,1), (1,2), (2,2)]

/-- `t.count(v)` for the pair `t` of Cartesian indices. -/
def cnt (v : Fin 3) (t : Fin 3 × Fin 3) : ℕ :=
  (if t.1 = v then 1 else 0) + (if t.2 = v then 1 else 0)

/-- `T3D.pow2ind[t.count(0), t.count(1), t.count(2)]` for an abstract
power-to-index map `p2i` of the (external) `Taylor3D` class. -/
def pindex (p2i : ℕ → ℕ → ℕ → ℕ) (t : Fin 3 × Fin 3) : ℕ :=
  p2i (cnt 0 t) (cnt 1 t) (cnt 2 t)

/-- The body of `Diffusivity`'s loop for one Taylor term with `n ≥ 2`:
for `n = 2`, add `np.eye(3) * c[0,0,0].real` and, when `l >= 2`, for each
upper-triangle pair `t` add `0.5*c[ind,0,0].real` at `t` and at its
transpose position; terms with `n > 2` contribute nothing. -/
def Dstep (p2i : ℕ → ℕ → ℕ → ℕ) (D : M3) (term : TaylorTerm) : M3 :=
  if term.1 = 2 then
    let c := term.2.2
    let D1 := D + (c 0).re • (1 : M3)
    if 2 ≤ term.2.1 then
      l2pairs.foldl
        (fun Dacc t =>
          Dacc + Matrix.stdBasisMatrix t.1 t.2 (0.5 * (c (pindex p2i t)).re)
            + Matrix.stdBasisMatrix t.2 t.1 (0.5 * (c (pindex p2i t)).re)) D1
    else D1
  else D

/-- The loop of `Diffusivity` over the coefficient list, raising on any term
with `n < 2`. -/
def DiffLoop (p2i : ℕ → ℕ → ℕ → ℕ) : List TaylorTerm → M3 → Except String M3
  | [], D => Except.ok D
  | term :: rest, D =>
    if term.1 < 2 then
      Except.error "Reduced Taylor expansion for D doesn't begin with n==2"
    else DiffLoop p2i rest (Dstep p2i D term)

/-- `Diffusivity(omega_Taylor_D)`: run the loop from the zero matrix and
return `-D * self.maxrate`. -/
def Diffusivity (p2i : ℕ → ℕ → ℕ → ℕ) (maxrate : ℝ) (coefflist : List TaylorTerm) :
    Except String M3 :=
  (DiffLoop p2i coefflist 0).map (fun D => -(maxrate • D))

/-- The expected value of `Diffusivity` (the claim's formula): entry `(i, j)`
is `-maxrate` times the sum, over the `n = 2` terms, of the isotropic `l = 0`
coefficient on the diagonal plus—for terms with `l ≥ 2`—the full `l = 2`
coefficient on the diagonal and half of it off the diagonal. -/
def DiffExpected (p2i : ℕ → ℕ → ℕ → ℕ) (maxrate : ℝ)
    (coefflist : List TaylorTerm) : M3 :=
  Matrix.of fun i j =>
    -maxrate *
      ((((coefflist.filter (fun t => t.1 == 2)).map fun t => (t.2.2 0).re).sum
          * (if i = j then 1 else 0))
        + (((coefflist.filter (fun t => t.1 == 2 && 2 ≤ t.2.1)).map fun t =>
            if i = j then (t.2.2 (pindex p2i (i, j))).re
            else 0.5 * (t.2.2 (pindex p2i (i, j))).re).sum))

/-! ### Helper lemmas -/

lemma foldl_if_add_eq {α : Type} (p : α → Prop) [DecidablePred p] (g : α → ℂ) :
    ∀ (l : List α) (a : ℂ),
      l.foldl (fun acc h => if p h then acc + g h else acc) a
        = a + ((l.filter fun h => decide (p h)).map g).sum := by
  intro l
  induction l with
  | nil => intro a; simp
  | cons x xs ih =>
    intro a
    by_cases hx : p x
    · simp [List.foldl_cons, hx, ih, add_assoc]
    · simp [List.foldl_cons, hx, ih]

lemma foldl_if_count_eq {α : Type} (p : α → Prop) [DecidablePred p] :
    ∀ (l : List α) (a : ℕ),
      l.foldl (fun acc h => if p h then acc + 1 else acc) a
        = a + (l.filter fun h => decide (p h)).length := by
  intro l
  induction l with
  | nil => intro a; simp
  | cons x xs ih =>
    intro a
    by_cases hx : p x
    · simp [List.foldl_cons, hx, ih, add_assoc, add_comm]
    · simp [List.foldl_cons, hx, ih]

/-! ### C6 -/

/-- C6: `FourierTransformJumps` returns (a) the array whose `(J, k, i, j)`
entry is the sum over the hops `((i,j), dx)` of class `J` of `exp(i k·dx)`
(so zero when class `J` has no hop at that pair), and (b) the array whose
`(i, J)` entry counts the hops of class `J` that originate at site `i`. -/
theorem C6_fourier_transform_jumps (jumpnetwork : List (List Jump))
    (kpts : List V3) (J kind i j : ℕ) :
    FTjumps jumpnetwork kpts J kind i j
        = (((jumpnetwork.getD J []).filter
              fun h => decide (h.1.1 = i ∧ h.1.2 = j)).map
            fun h => Complex.exp
              (Complex.I * (dot3 (kpts.getD kind (fun _ => 0)) h.2 : ℝ))).sum
      ∧ SEjumps jumpnetwork i J
        = ((jumpnetwork.getD J []).filter fun h => decide (h.1.1 = i)).length := by
  constructor
  · unfold FTjumps FTentry
    rw [foldl_if_add_eq (fun h : Jump => h.1.1 = i ∧ h.1.2 = j)]
    simp
  · unfold SEjumps SEentry
    rw [foldl_if_count_eq (fun h : Jump => h.1.1 = i)]
    simp

/-! ### C9 -/

/-- C9: calling the evaluator on a freshly constructed calculator (before any
rate assignment, while the diffusivity still holds its `__init__` sentinel)
raises an error rather than returning a value. -/
theorem C9_premature_use (G : List GroupOp) (kpts : List V3) (wts : List ℝ)
    (gsc : ℕ → ℕ → ℕ → ℂ) (gT : ℕ → ℕ → V3 → ℂ) (ux : M3) (mr : ℝ)
    (i j : ℕ) (dx : V3) :
    callGF (GFState.init G kpts wts gsc gT ux mr) i j dx
      = Except.error "Need to SetRates first" := rfl

/-! ### C4 -/

/-- C4: the gamma-point matrix handed to the eigensolver (`gammacoeff`, the
negated `n = 0` Taylor coefficient) has its eigenvalues returned sorted
ascending, so a zero eigenvalue of the positive-semidefinite matrix comes
first; and the `SetRates` equilibrium check raises an arithmetic error if and
only if the smallest of those eigenvalues is not approximately zero. -/
theorem C4_equilibrium_check (eigs : List ℝ) (hne : eigs ≠ [])
    (hsort : List.Sorted (· ≤ ·) eigs) :
    ((∃ e, equilCheck eigs = Except.error e) ↔ ¬ isclose (eigs.headD 0) 0)
      ∧ (∀ x ∈ eigs, eigs.headD 0 ≤ x)
      ∧ ((0 : ℝ) ∈ eigs → (∀ x ∈ eigs, 0 ≤ x) → eigs.headD 0 = 0) := by
  obtain ⟨a, l, rfl⟩ := List.exists_cons_of_ne_nil hne
  have hhead : ((gammaEigen (a :: l)).headD 0) = -a := by
    simp [gammaEigen]
  have hcl : isclose (-a) 0 ↔ isclose a 0 := by
    unfold isclose
    constructor <;> intro h <;>
      simpa [abs_neg] using h
  refine ⟨?_, ?_, ?_⟩
  · constructor
    · rintro ⟨e, he⟩
      intro hcls
      unfold equilCheck at he
      rw [hhead] at he
      rw [if_pos (hcl.mpr (by simpa using hcls))] at he
      exact Except.noConfusion he
    · intro hcls
      refine ⟨"No equilibrium solution to rates?", ?_⟩
      unfold equilCheck
      rw [hhead, if_neg]
      intro hc
      exact hcls (by simpa using hcl.mp hc)
  · intro x hx
    rcases List.mem_cons.mp hx with rfl | hx
    · simp
    · simpa using (List.sorted_cons.mp hsort).1 x hx
  · intro h0 hnn
    have h1 : a ≤ 0 := by
      rcases List.mem_cons.mp h0 with h | h
      · exact le_of_eq h.symm
      · exact (List.sorted_cons.mp hsort).1 0 h
    have h2 : (0 : ℝ) ≤ a := hnn a (by simp)
    simpa using le_antisymm h1 h2

/-- Witness for C4 at the concrete ascending eigenvalue list `[0, 2]`. -/
theorem C4_equilibrium_check_witness :
    (List.Sorted (· ≤ ·) [(0 : ℝ), 2])
      ∧ (((∃ e, equilCheck [(0 : ℝ), 2] = Except.error e)
            ↔ ¬ isclose (([(0 : ℝ), 2]).headD 0) 0)
          ∧ (∀ x ∈ [(0 : ℝ), 2], ([(0 : ℝ), 2]).headD 0 ≤ x)
          ∧ ((0 : ℝ) ∈ [(0 : ℝ), 2] → (∀ x ∈ [(0 : ℝ), 2], 0 ≤ x)
              → ([(0 : ℝ), 2]).headD 0 = 0)) := by
  have hs : List.Sorted (· ≤ ·) [(0 : ℝ), 2] := by
    simp [List.sorted_cons]
  exact ⟨hs, C4_equilibrium_check [(0 : ℝ), 2] (by simp) hs⟩

/-! ### C5 -/

/-- C5 counterexample: for the coefficient list `[(2, 2, c)]` there is no
`n = 0` term at all (every term has `n ≠ 0`, so "the n = 0 term vanishes"
holds), yet the `SetRates` isotropization check raises the arithmetic error —
the code tests the angular-momentum index `l` of the first term, not the
`n = 0` term. -/
theorem C5_counterexample :
    isotropyCheck [((2 : ℕ), (2 : ℕ), fun _ => (1 : ℂ))]
        = Except.error "Problem isotropizing D?"
      ∧ ∀ t ∈ ([((2 : ℕ), (2 : ℕ), fun _ => (1 : ℂ))] : List TaylorTerm),
          t.1 ≠ 0 := by
  constructor
  · rfl
  · intro t ht
    rw [List.mem_singleton.mp ht]
    simp

/-- C5 amended: the isotropization check of `SetRates` passes if and only if
the angular-momentum index `l` of the leading (first) term of the rotated
diffusivity block's coefficient list is zero, i.e. the leading term is
isotropic; otherwise it raises the arithmetic error. -/
theorem C5_isotropy_check_leading_l (coefflist : List TaylorTerm) :
    isotropyCheck coefflist = Except.ok ()
      ↔ (coefflist.headD (0, 0, fun _ => 0)).2.1 = 0 := by
  unfold isotropyCheck
  by_cases h : (coefflist.headD (0, 0, fun _ => 0)).2.1 = 0
  · simp [h]
  · simp [h]

/-! ### C3 -/

/-- A concrete jump network with one class joining two distinct Wyckoff
classes: hops `(0 → 1, +x)` and `(1 → 0, -x)`. -/
def jn3 : List (List Jump) :=
  [[((0, 1), fun _ => 1), ((1, 0), fun _ => -1)]]

/-- C3 counterexample: with two Wyckoff classes of different site prefactors
(`pre = [1, 4]`, `betaene = [0, 0]`, one jump class with `preT = [1]`,
`betaeneT = [0]`), the escape term built by `SetRates` at site `0` differs
from the multiplicity-weighted *symmetrized*-rate sum demanded by the claim:
the code uses the plain outgoing rate `preT/pre[wi] * exp(betaene[wi]-beT)`,
giving `-2`, while the claimed formula gives `-1`. -/
theorem C3_counterexample :
    escape (SEjumps jn3) [0, 1] [1, 4] [0, 0] [1] [0]
        (npMax (SymmRates [(0, 1)] [1, 4] [0, 0] [1] [0])) 0
      ≠ escapeSpec (SEjumps jn3) (SymmRates [(0, 1)] [1, 4] [0, 0] [1] [0])
        (npMax (SymmRates [(0, 1)] [1, 4] [0, 0] [1] [0])) 0 := by
  have h4 : Real.sqrt 4 = 2 := by
    rw [show (4 : ℝ) = 2 ^ 2 by norm_num, Real.sqrt_sq (by norm_num : (0 : ℝ) ≤ 2)]
  have hsr : SymmRates [(0, 1)] [1, 4] [0, 0] [1] [0] = [1 / 2] := by
    unfold SymmRates
    simp [List.getD]
    norm_num [h4]
  have hSE : SEjumps jn3 0 0 = 1 := rfl
  rw [hsr]
  unfold escape escapeSpec npMax
  simp [List.range_succ, List.getD, hSE]

/-- C3 amended: the escape (diagonal) term of `SetRates` at site `i` equals
the negative sum, over jump classes `J`, of the site multiplicity
`SEjumps[i, J]` times the plain outgoing rate
`preT[J] * exp(betaene[w(i)] - betaeneT[J]) / pre[w(i)]` of class `J` from
site `i`'s Wyckoff class `w(i)`, divided by the maximum-rate normalization. -/
theorem C3_escape_formula (SE : ℕ → ℕ → ℕ) (invmap : List ℕ)
    (pre betaene preT betaeneT : List ℝ) (maxrate : ℝ) (i : ℕ) :
    escape SE invmap pre betaene preT betaeneT maxrate i
      = -(((List.range preT.length).map fun J =>
            (SE i J : ℝ) * preT.getD J 0
              * Real.exp (betaene.getD (invmap.getD i 0) 0 - betaeneT.getD J 0)
              / pre.getD (invmap.getD i 0) 0).sum)
        / maxrate := by
  unfold escape
  have h : (fun J => (SE i J : ℝ) * preT.getD J 0 / pre.getD (invmap.getD i 0) 0
        * Real.exp (betaene.getD (invmap.getD i 0) 0 - betaeneT.getD J 0))
      = fun J => (SE i J : ℝ) * preT.getD J 0
        * Real.exp (betaene.getD (invmap.getD i 0) 0 - betaeneT.getD J 0)
        / pre.getD (invmap.getD i 0) 0 := by
    funext J
    ring
  rw [h]

/-! ### C2 -/

lemma le_foldl_max : ∀ (l : List ℝ) (a : ℝ), a ≤ l.foldl max a := by
  intro l
  induction l with
  | nil => intro a; simp
  | cons x xs ih =>
    intro a
    calc a ≤ max a x := le_max_left a x
    _ ≤ xs.foldl max (max a x) := ih (max a x)

lemma foldl_max_div {m : ℝ} (hm : 0 < m) :
    ∀ (l : List ℝ) (a : ℝ), (l.map (fun r => r / m)).foldl max (a / m)
      = (l.foldl max a) / m := by
  intro l
  induction l with
  | nil => intro a; simp
  | cons x xs ih =>
    intro a
    have hmax : max (a / m) (x / m) = max a x / m := by
      rcases le_total a x with h | h
      · rw [max_eq_right h, max_eq_right ((div_le_div_iff_of_pos_right hm).mpr h)]
      · rw [max_eq_left h, max_eq_left ((div_le_div_iff_of_pos_right hm).mpr h)]
    simp only [List.map_cons, List.foldl_cons, hmax]
    exact ih (max a x)

lemma npMax_map_div {m : ℝ} (hm : 0 < m) (l : List ℝ) :
    npMax (l.map (fun r => r / m)) = npMax l / m := by
  cases l with
  | nil => simp [npMax]
  | cons a xs =>
    simp only [List.map_cons, npMax]
    exact foldl_max_div hm xs a

lemma npMax_pos (l : List ℝ) (hne : l ≠ []) (hpos : ∀ x ∈ l, 0 < x) :
    0 < npMax l := by
  obtain ⟨a, xs, rfl⟩ := List.exists_cons_of_ne_nil hne
  have : a ≤ npMax (a :: xs) := le_foldl_max xs a
  exact lt_of_lt_of_le (hpos a (by simp)) this

/-- C2: with positive site and transition prefactors, every entry of the rate
array stored by `SetRates` equals
`preT * exp(0.5 βE_{w0} + 0.5 βE_{w1} - βE_T) / sqrt(pre_{w0} pre_{w1})`
divided by the maximum symmetrized rate, and the stored array's maximum is 1. -/
theorem C2_symmrate_normalization (jumppairs : List (ℕ × ℕ))
    (pre betaene preT betaeneT : List ℝ)
    (hne : jumppairs ≠ [])
    (hlT : preT.length = jumppairs.length)
    (hlB : betaeneT.length = jumppairs.length)
    (hpre : ∀ p ∈ jumppairs, 0 < pre.getD p.1 0 ∧ 0 < pre.getD p.2 0)
    (hpreT : ∀ x ∈ preT, 0 < x) :
    (∀ J, (hJ : J < jumppairs.length) →
      (normRates jumppairs pre betaene preT betaeneT).getD J 0
        = (preT.getD J 0
            * Real.exp (0.5 * betaene.getD (jumppairs.getD J (0, 0)).1 0
                + 0.5 * betaene.getD (jumppairs.getD J (0, 0)).2 0
                - betaeneT.getD J 0)
            / Real.sqrt (pre.getD (jumppairs.getD J (0, 0)).1 0
                * pre.getD (jumppairs.getD J (0, 0)).2 0))
          / npMax (SymmRates jumppairs pre betaene preT betaeneT))
      ∧ npMax (normRates jumppairs pre betaene preT betaeneT) = 1 := by
  have hzlen : (jumppairs.zip (preT.zip betaeneT)).length = jumppairs.length := by
    simp [List.length_zip, hlT, hlB]
  have hsrlen : (SymmRates jumppairs pre betaene preT betaeneT).length
      = jumppairs.length := by
    simp [SymmRates, hzlen]
  have hpos : ∀ r ∈ SymmRates jumppairs pre betaene preT betaeneT, 0 < r := by
    intro r hr
    obtain ⟨x, hx, rfl⟩ := List.mem_map.mp hr
    have hx1 : x.1 ∈ jumppairs := (List.of_mem_zip hx).1
    have hx2 : x.2.1 ∈ preT := (List.of_mem_zip (List.of_mem_zip hx).2).1
    exact div_pos (mul_pos (hpreT _ hx2) (Real.exp_pos _))
      (Real.sqrt_pos.mpr (mul_pos (hpre _ hx1).1 (hpre _ hx1).2))
  have hsne : SymmRates jumppairs pre betaene preT betaeneT ≠ [] := by
    intro h
    apply hne
    have := hsrlen
    rw [h] at this
    exact List.length_eq_zero.mp this.symm
  have hmp : 0 < npMax (SymmRates jumppairs pre betaene preT betaeneT) :=
    npMax_pos _ hsne hpos
  constructor
  · intro J hJ
    have hJs : J < (SymmRates jumppairs pre betaene preT betaeneT).length := by
      rw [hsrlen]; exact hJ
    unfold normRates
    rw [List.getD_eq_getElem?_getD, List.getElem?_map, List.getElem?_eq_getElem hJs]
    simp only [Option.map_some', Option.getD_some]
    congr 1
    unfold SymmRates
    rw [List.getElem_map, List.getElem_zip, List.getElem_zip]
    have e1 : jumppairs[J] = jumppairs.getD J (0, 0) := by
      rw [List.getD_eq_getElem?_getD, List.getElem?_eq_getElem hJ]; rfl
    have hJT : J < preT.length := by omega
    have hJB : J < betaeneT.length := by omega
    have e2 : preT[J] = preT.getD J 0 := by
      rw [List.getD_eq_getElem?_getD, List.getElem?_eq_getElem hJT]
      rfl
    have e3 : betaeneT[J] = betaeneT.getD J 0 := by
      rw [List.getD_eq_getElem?_getD, List.getElem?_eq_getElem hJB]
      rfl
    rw [e1, e2, e3]
  · unfold normRates
    rw [npMax_map_div hmp]
    exact div_self (ne_of_gt hmp)

/-- Witness for C2 at a one-class system with unit prefactors and zero
energies. -/
theorem C2_symmrate_normalization_witness :
    ([((0 : ℕ), (0 : ℕ))] ≠ ([] : List (ℕ × ℕ)))
      ∧ npMax (normRates [(0, 0)] [1] [0] [1] [0]) = 1 := by
  have hne : [((0 : ℕ), (0 : ℕ))] ≠ ([] : List (ℕ × ℕ)) := by simp
  refine ⟨hne, (C2_symmrate_normalization [(0, 0)] [1] [0] [1] [0] hne rfl rfl
    ?_ ?_).2⟩
  · intro p hp
    rw [List.mem_singleton.mp hp]
    norm_num [List.getD]
  · intro x hx
    rw [List.mem_singleton.mp hx]
    norm_num

/-! ### C7 -/

/-- C7: in the semicontinuum inversion loop of `SetRates`, the residual stored
at a zone-center mesh point equals `-(1/pmax^2)` times the outer product of
the diffusive eigenvector with itself, while at every other mesh point it
equals the numerical inverse of `omega(q)` minus the Taylor-series evaluation
at the transformed momentum coordinate. -/
theorem C7_semicontinuum_residual {N : ℕ} (kpts : List V3)
    (omega : ℕ → Matrix (Fin N) (Fin N) ℂ) (pmax : ℝ) (vr0 : Fin N → ℝ)
    (pqtrans : M3) (gT : V3 → Matrix (Fin N) (Fin N) ℂ) (qind : ℕ) :
    (allclose0 (kpts.getD qind (fun _ => 0)) →
      ∀ a b, gscStep kpts omega pmax vr0 pqtrans gT qind a b
        = (((-1 / pmax ^ 2) * (vr0 a * vr0 b) : ℝ) : ℂ))
    ∧ (¬ allclose0 (kpts.getD qind (fun _ => 0)) →
      ∀ a b, gscStep kpts omega pmax vr0 pqtrans gT qind a b
        = (omega qind)⁻¹ a b
          - gT (pqtrans.mulVec (kpts.getD qind (fun _ => 0))) a b) := by
  constructor
  · intro h a b
    unfold gscStep
    rw [if_pos h]
    simp [Matrix.smul_apply, Complex.ofReal_mul]
  · intro h a b
    unfold gscStep
    rw [if_neg h]
    simp [Matrix.sub_apply]

/-- Witness for C7 at a one-site system whose single mesh point is the zone
center. -/
theorem C7_semicontinuum_residual_witness :
    allclose0 (([fun _ => (0 : ℝ)] : List V3).getD 0 (fun _ => 0))
      ∧ gscStep (N := 1) [fun _ => (0 : ℝ)] (fun _ => 1) 1 (fun _ => 1) 1
          (fun _ => 0) 0 0 0
        = (((-1 / (1 : ℝ) ^ 2) * ((1 : ℝ) * 1) : ℝ) : ℂ) := by
  have h : allclose0 (([fun _ => (0 : ℝ)] : List V3).getD 0 (fun _ => 0)) := by
    intro i
    norm_num [List.getD]
  exact ⟨h, (C7_semicontinuum_residual [fun _ => (0 : ℝ)] (fun _ => 1) 1
    (fun _ => 1) 1 (fun _ => 0) 0).1 h 0 0⟩

/-! ### C8 -/

/-- C8: after a rate assignment, the evaluator raises an arithmetic error
exactly when the symmetry-averaged mesh sum or the real-space Taylor
correction has a non-negligible imaginary part; otherwise it returns the sum
of the two real parts divided by the max-rate normalization factor. -/
theorem C8_call_imaginary_check (s : GFState) (M : M3) (i j : ℕ) (dx : V3)
    (hD : s.D = some M) :
    ((∃ e, callGF s i j dx = Except.error e)
        ↔ (¬ isclose (gIFTval s i j dx).im 0 ∨ ¬ isclose (gTval s i j dx).im 0))
      ∧ (isclose (gIFTval s i j dx).im 0 → isclose (gTval s i j dx).im 0 →
          callGF s i j dx
            = Except.ok (((gIFTval s i j dx).re + (gTval s i j dx).re)
                / s.maxrate)) := by
  constructor
  · by_cases h1 : isclose (gIFTval s i j dx).im 0 <;>
      by_cases h2 : isclose (gTval s i j dx).im 0 <;>
      simp [callGF, hD, h1, h2]
  · intro h1 h2
    simp [callGF, hD, h1, h2, Complex.add_re]

/-- The assembled state used to witness C8: empty mesh and trivial Taylor
data, with rates assigned (`D = some 1`). -/
def w8State : GFState :=
  ⟨[], [], [], fun _ _ _ => 0, fun _ _ _ => 0, 1, 1, some 1⟩

/-- Witness for C8 on `w8State`. -/
theorem C8_call_imaginary_check_witness :
    w8State.D = some 1
      ∧ isclose (gIFTval w8State 0 0 (fun _ => 0)).im 0
      ∧ isclose (gTval w8State 0 0 (fun _ => 0)).im 0
      ∧ callGF w8State 0 0 (fun _ => 0)
          = Except.ok (((gIFTval w8State 0 0 (fun _ => 0)).re
              + (gTval w8State 0 0 (fun _ => 0)).re) / w8State.maxrate) := by
  have hIFT : gIFTval w8State 0 0 (fun _ => 0) = 0 := by
    simp [gIFTval, w8State]
  have hTv : gTval w8State 0 0 (fun _ => 0) = 0 := rfl
  have h1 : isclose (gIFTval w8State 0 0 (fun _ => 0)).im 0 := by
    rw [hIFT]
    norm_num [isclose]
  have h2 : isclose (gTval w8State 0 0 (fun _ => 0)).im 0 := by
    rw [hTv]
    norm_num [isclose]
  exact ⟨rfl, h1, h2,
    (C8_call_imaginary_check w8State 1 0 0 (fun _ => 0) rfl).2 h1 h2⟩

/-! ### C1 -/

/-- C1: the evaluated Green function is invariant under the crystal's point
group.  The group structure enters through the permutation `σ` (right
translation by the group element `(R, π)` on the stored operation list) and —
because the real-space `Taylor3D` objects are external to the sources — the
group covariance of the stored per-pair Taylor evaluation is the spec-modelled
hypothesis `hT`; the invariance of the symmetry-averaged mesh sum is proved by
reindexing the group sum. -/
theorem C1_call_point_group_invariance (s : GFState) (M : M3)
    (hD : s.D = some M) (R : M3) (pi : ℕ → ℕ) (i j : ℕ) (dx : V3)
    (σ : Equiv.Perm (Fin s.G.length))
    (hrot : ∀ n, (s.G.get (σ n)).1 = (s.G.get n).1 * R)
    (hidx : ∀ n m, (s.G.get (σ n)).2 m = (s.G.get n).2 (pi m))
    (hT : s.gT_ij (pi i) (pi j) (s.uxtrans.mulVec (R.mulVec dx))
        = s.gT_ij i j (s.uxtrans.mulVec dx)) :
    callGF s (pi i) (pi j) (R.mulVec dx) = callGF s i j dx := by
  have hg : gIFTval s (pi i) (pi j) (R.mulVec dx) = gIFTval s i j dx := by
    unfold gIFTval
    congr 1
    have hterm : ∀ n : Fin s.G.length,
        (∑ k : Fin s.kpts.length, ((s.wts.getD k 0 : ℝ) : ℂ)
            * s.gsc ((s.G.get n).2 (pi i)) ((s.G.get n).2 (pi j)) k
            * Complex.exp (-Complex.I
                * (dot3 (s.kpts.get k) ((s.G.get n).1.mulVec (R.mulVec dx)) : ℝ)))
          = ∑ k : Fin s.kpts.length, ((s.wts.getD k 0 : ℝ) : ℂ)
            * s.gsc ((s.G.get (σ n)).2 i) ((s.G.get (σ n)).2 j) k
            * Complex.exp (-Complex.I
                * (dot3 (s.kpts.get k) ((s.G.get (σ n)).1.mulVec dx) : ℝ)) := by
      intro n
      apply Finset.sum_congr rfl
      intro k _
      rw [hidx n i, hidx n j, hrot n, Matrix.mulVec_mulVec]
    calc (∑ n : Fin s.G.length, ∑ k : Fin s.kpts.length,
            ((s.wts.getD k 0 : ℝ) : ℂ)
            * s.gsc ((s.G.get n).2 (pi i)) ((s.G.get n).2 (pi j)) k
            * Complex.exp (-Complex.I
                * (dot3 (s.kpts.get k) ((s.G.get n).1.mulVec (R.mulVec dx)) : ℝ)))
        = ∑ n : Fin s.G.length, ∑ k : Fin s.kpts.length,
            ((s.wts.getD k 0 : ℝ) : ℂ)
            * s.gsc ((s.G.get (σ n)).2 i) ((s.G.get (σ n)).2 j) k
            * Complex.exp (-Complex.I
                * (dot3 (s.kpts.get k) ((s.G.get (σ n)).1.mulVec dx) : ℝ)) :=
          Finset.sum_congr rfl (fun n _ => hterm n)
      _ = ∑ n : Fin s.G.length, ∑ k : Fin s.kpts.length,
            ((s.wts.getD k 0 : ℝ) : ℂ)
            * s.gsc ((s.G.get n).2 i) ((s.G.get n).2 j) k
            * Complex.exp (-Complex.I
                * (dot3 (s.kpts.get k) ((s.G.get n).1.mulVec dx) : ℝ)) :=
          Equiv.sum_comp σ (fun n => ∑ k : Fin s.kpts.length,
            ((s.wts.getD k 0 : ℝ) : ℂ)
            * s.gsc ((s.G.get n).2 i) ((s.G.get n).2 j) k
            * Complex.exp (-Complex.I
                * (dot3 (s.kpts.get k) ((s.G.get n).1.mulVec dx) : ℝ)))
  have hgT : gTval s (pi i) (pi j) (R.mulVec dx) = gTval s i j dx := hT
  unfold callGF
  rw [hD, hg, hgT]

/-- The assembled state used to witness C1: the trivial group (identity
operation only) and trivial mesh data, with rates assigned. -/
def w1State : GFState :=
  ⟨[(1, fun m => m)], [], [], fun _ _ _ => 0, fun _ _ _ => 0, 1, 1, some 1⟩

/-- Witness for C1 on `w1State` under the identity group operation. -/
theorem C1_call_point_group_invariance_witness :
    (∀ n : Fin w1State.G.length,
        (w1State.G.get ((Equiv.refl (Fin w1State.G.length)) n)).1
          = (w1State.G.get n).1 * 1)
      ∧ callGF w1State 0 0 ((1 : M3).mulVec (fun _ => 1))
        = callGF w1State 0 0 (fun _ => 1) := by
  have hrot : ∀ n : Fin w1State.G.length,
      (w1State.G.get ((Equiv.refl (Fin w1State.G.length)) n)).1
        = (w1State.G.get n).1 * 1 := by
    intro n
    simp
  refine ⟨hrot, ?_⟩
  exact C1_call_point_group_invariance w1State 1 rfl 1 (fun m => m) 0 0
    (fun _ => 1) (Equiv.refl _) hrot (fun n m => rfl) rfl

/-! ### C10 -/

/-- The contribution of a single Taylor term to the `Diffusivity` accumulator:
zero unless `n = 2`; for `n = 2`, the isotropic part on the diagonal plus,
when `l ≥ 2`, the full `l = 2` coefficient on the diagonal and half of it off
the diagonal. -/
def termContribution (p2i : ℕ → ℕ → ℕ → ℕ) (t : TaylorTerm) : M3 :=
  Matrix.of fun i j =>
    if t.1 = 2 then
      (t.2.2 0).re * (if i = j then 1 else 0)
        + (if 2 ≤ t.2.1 then
            (if i = j then (t.2.2 (pindex p2i (i, j))).re
             else 0.5 * (t.2.2 (pindex p2i (i, j))).re)
          else 0)
    else 0

/-- The total accumulator produced by `Diffusivity`'s loop (before the final
negation and rescaling). -/
def DiffDelta (p2i : ℕ → ℕ → ℕ → ℕ) (cl : List TaylorTerm) : M3 :=
  Matrix.of fun i j =>
    ((cl.filter fun t => t.1 == 2).map fun t => (t.2.2 0).re).sum
        * (if i = j then 1 else 0)
      + ((cl.filter fun t => t.1 == 2 && 2 ≤ t.2.1).map fun t =>
          if i = j then (t.2.2 (pindex p2i (i, j))).re
          else 0.5 * (t.2.2 (pindex p2i (i, j))).re).sum

lemma l2fold_apply (p2i : ℕ → ℕ → ℕ → ℕ) (c : ℕ → ℂ) (D1 : M3) (i j : Fin 3) :
    (l2pairs.foldl (fun Dacc t =>
        Dacc + Matrix.stdBasisMatrix t.1 t.2 (0.5 * (c (pindex p2i t)).re)
          + Matrix.stdBasisMatrix t.2 t.1 (0.5 * (c (pindex p2i t)).re)) D1) i j
      = D1 i j + (if i = j then (c (pindex p2i (i, j))).re
          else 0.5 * (c (pindex p2i (i, j))).re) := by
  simp only [l2pairs, List.foldl_cons, List.foldl_nil]
  fin_cases i <;> fin_cases j <;>
    simp [Matrix.add_apply, Matrix.stdBasisMatrix, Matrix.of_apply, pindex, cnt] <;>
    ring

lemma Dstep_eq (p2i : ℕ → ℕ → ℕ → ℕ) (D : M3) (t : TaylorTerm) :
    Dstep p2i D t = D + termContribution p2i t := by
  ext i j
  by_cases h2 : t.1 = 2
  · by_cases hl : 2 ≤ t.2.1
    · unfold Dstep
      rw [if_pos h2, if_pos hl, l2fold_apply]
      simp only [termContribution, h2, hl, if_true, Matrix.add_apply,
        Matrix.smul_apply, Matrix.one_apply, Matrix.of_apply, smul_eq_mul]
      by_cases hij : i = j <;> (simp [hij]; try ring)
    · unfold Dstep
      rw [if_pos h2, if_neg hl]
      simp only [termContribution, h2, hl, if_true, if_false, Matrix.add_apply,
        Matrix.smul_apply, Matrix.one_apply, Matrix.of_apply, smul_eq_mul]
      by_cases hij : i = j <;> simp [hij]
  · unfold Dstep
    rw [if_neg h2]
    simp [termContribution, h2, Matrix.add_apply, Matrix.of_apply]

lemma DiffDelta_nil (p2i : ℕ → ℕ → ℕ → ℕ) : DiffDelta p2i [] = 0 := by
  ext i j
  simp [DiffDelta]

lemma DiffDelta_cons (p2i : ℕ → ℕ → ℕ → ℕ) (t : TaylorTerm)
    (cl : List TaylorTerm) :
    DiffDelta p2i (t :: cl) = termContribution p2i t + DiffDelta p2i cl := by
  ext i j
  by_cases h2 : t.1 = 2 <;> by_cases hl : 2 ≤ t.2.1 <;>
    simp [DiffDelta, termContribution, List.filter_cons, h2, hl,
      Matrix.add_apply] <;>
    by_cases hij : i = j <;> simp [hij] <;> try ring

lemma DiffLoop_ok (p2i : ℕ → ℕ → ℕ → ℕ) :
    ∀ (cl : List TaylorTerm) (D : M3), (∀ t ∈ cl, 2 ≤ t.1) →
      DiffLoop p2i cl D = Except.ok (D + DiffDelta p2i cl) := by
  intro cl
  induction cl with
  | nil =>
    intro D _
    rw [DiffDelta_nil, add_zero]
    rfl
  | cons t cl ih =>
    intro D h
    have h2 : 2 ≤ t.1 := h t (by simp)
    unfold DiffLoop
    rw [if_neg (by omega)]
    rw [ih _ (fun x hx => h x (List.mem_cons_of_mem _ hx))]
    rw [Dstep_eq, DiffDelta_cons, add_assoc]

lemma DiffLoop_err (p2i : ℕ → ℕ → ℕ → ℕ) :
    ∀ (cl : List TaylorTerm) (D : M3), (∃ t ∈ cl, t.1 < 2) →
      DiffLoop p2i cl D
        = Except.error "Reduced Taylor expansion for D doesn't begin with n==2" := by
  intro cl
  induction cl with
  | nil =>
    intro D h
    obtain ⟨t, ht, _⟩ := h
    exact absurd ht (List.not_mem_nil t)
  | cons t cl ih =>
    intro D h
    unfold DiffLoop
    by_cases h2 : t.1 < 2
    · rw [if_pos h2]
    · rw [if_neg h2]
      obtain ⟨x, hx, hlt⟩ := h
      rcases List.mem_cons.mp hx with rfl | hx
      · exact absurd hlt h2
      · exact ih _ ⟨x, hx, hlt⟩

/-- C10: `Diffusivity` raises an error when the reduced series contains any
term with `n < 2`; otherwise the returned 3×3 diffusivity is built only from
the `n = 2` terms, as the isotropic `l = 0` part times the identity plus the
`l = 2` contributions (full coefficient on diagonal components, half on
off-diagonal ones), the whole negated and multiplied by the max-rate
normalization factor. -/
theorem C10_diffusivity_from_n2 (p2i : ℕ → ℕ → ℕ → ℕ) (maxrate : ℝ)
    (cl : List TaylorTerm) :
    ((∃ t ∈ cl, t.1 < 2) →
      Diffusivity p2i maxrate cl
        = Except.error "Reduced Taylor expansion for D doesn't begin with n==2")
      ∧ ((∀ t ∈ cl, 2 ≤ t.1) →
        Diffusivity p2i maxrate cl
          = Except.ok (DiffExpected p2i maxrate cl)) := by
  constructor
  · intro h
    unfold Diffusivity
    rw [DiffLoop_err p2i cl 0 h]
    rfl
  · intro h
    unfold Diffusivity
    rw [DiffLoop_ok p2i cl 0 h]
    have : -(maxrate • ((0 : M3) + DiffDelta p2i cl)) = DiffExpected p2i maxrate cl := by
      ext i j
      simp [DiffExpected, DiffDelta, Matrix.add_apply, Matrix.smul_apply]
    rw [Except.map, this]

/-- Witness for C10 on the single-term coefficient list `[(2, 0, 1)]`. -/
theorem C10_diffusivity_from_n2_witness :
    (∀ t ∈ ([((2 : ℕ), (0 : ℕ), fun _ => (1 : ℂ))] : List TaylorTerm), 2 ≤ t.1)
      ∧ Diffusivity (fun _ _ _ => 0) 1 [((2 : ℕ), (0 : ℕ), fun _ => (1 : ℂ))]
        = Except.ok
            (DiffExpected (fun _ _ _ => 0) 1
              [((2 : ℕ), (0 : ℕ), fun _ => (1 : ℂ))]) := by
  have h : ∀ t ∈ ([((2 : ℕ), (0 : ℕ), fun _ => (1 : ℂ))] : List TaylorTerm),
      2 ≤ t.1 := by
    intro t ht
    rw [List.mem_singleton.mp ht]
  exact ⟨h, (C10_diffusivity_from_n2 (fun _ _ _ => 0) 1
    [((2 : ℕ), (0 : ℕ), fun _ => (1 : ℂ))]).2 h⟩

end OnsagerGF
